import Mathlib

/-!
Verification of the Gabhil annotation extractor (src/gabhil.py).

The Python source is shallowly embedded: each dataclass becomes a
structure, each pure function becomes a Lean function, and the two
in-place effects of the source are made explicit:

* the formatter mutates the text field of its argument, so its model
  returns the produced string together with the post-call record;
* functions that can raise (IndexError on an empty list, TypeError when
  writing None to a file, AttributeError on a missing markup node)
  return Except String.

Python strings are modelled by String (both compare lexicographically by
code point), Python dicts by association lists with insertion order, and
Python sorted (a stable sort) by List.mergeSort, which Lean proves stable.
-/

namespace Gabhil

/-- Whitespace recognised by Python str.split and str.strip, restricted to
the ASCII whitespace characters: space, tab, newline, carriage return,
vertical tab and form feed. -/
def isPyWs (c : Char) : Bool :=
  c = ' ' || c = '\t' || c = '\n' || c = '\r' || c = '\x0b' || c = '\x0c'

/-- Model of Python str.split() with no arguments, at the character-list
level: the maximal runs of non-whitespace characters, in order. -/
def pyWords : List Char → List (List Char)
  | [] => []
  | c :: cs =>
    if isPyWs c then pyWords cs
    else (c :: cs.takeWhile (fun d => !isPyWs d)) :: pyWords (cs.dropWhile (fun d => !isPyWs d))
termination_by l => l.length
decreasing_by
  · simp [List.length_cons]
  · have h := (List.dropWhile_sublist (l := cs) (fun d => !isPyWs d)).length_le
    simp [List.length_cons]
    omega

/-- Model of " ".join on a list of words (character-list level): the first
word, then each further word preceded by one space. -/
def joinWords : List (List Char) → List Char
  | [] => []
  | w :: ws => w ++ ws.flatMap (fun u => ' ' :: u)

/-- Model of the Python expression " ".join(s.split()): collapse every run
of whitespace to a single space and drop leading and trailing whitespace. -/
def joinSplit (s : String) : String :=
  String.mk (joinWords (pyWords s.data))

/-- Model of Python str.strip(): drop leading and trailing whitespace. -/
def pyStrip (s : String) : String :=
  String.mk (((s.data.dropWhile isPyWs).reverse.dropWhile isPyWs).reverse)

/-- Split a character list at newline characters; a list with no newline
yields one chunk, and each newline starts a new chunk. This is how a
produced string is divided into physical text lines. -/
def splitNL : List Char → List (List Char)
  | [] => [[]]
  | c :: cs =>
    if c = '\n' then [] :: splitNL cs
    else
      match splitNL cs with
      | [] => [[c]]
      | l :: ls => (c :: l) :: ls

/-- The physical text lines of a string, as character lists. -/
def strLines (s : String) : List (List Char) :=
  splitNL s.data

/-- Model of the five-field dataclass storing one highlight record
(source line 33). Field names follow the source. -/
structure Annot where
  date : String
  chapter : String
  color : String
  text : String
  note : String
  deriving DecidableEq

/-- Model of the metadata dataclass (source line 42). The source misspells
the author default as "Unkown". The imported field is a datetime captured
by datetime.now() in the source; it is modelled as a plain string. -/
structure MetaData where
  title : String := "Untitled"
  author : String := "Unkown"
  source : String := "Unspecified"
  imported : String := ""
  deriving DecidableEq

/-- The group_by option holds either a single string or a list of strings
(the source normalises a bare string to a one-element list). -/
inductive GroupBy where
  | one (s : String)
  | many (l : List String)
  deriving DecidableEq

/-- Model of the Config dataclass (source line 12), with the defaults of
the source. The html_parser backend choice does not affect the modelled
pipeline and is omitted. The color map, a Python dict, is modelled as an
association list. -/
structure Config where
  include_metadata : Bool := true
  append_file : Bool := false
  include_date_in_notes : Bool := false
  include_chapter_in_notes : Bool := false
  group_by : GroupBy := GroupBy.one "all"
  color_map : List (String × String) := []
  join_titles : Bool := true
  dump_stdout : Bool := false
  deriving DecidableEq

/-- The dataclass field names of a highlight record; hasattr on such a
record with a candidate group key is modelled as membership here. -/
def annotFields : List String := ["date", "chapter", "color", "text", "note"]

/-- Model of getattr on a highlight record for the five field names. -/
def getField (a : Annot) (k : String) : String :=
  if k = "date" then a.date
  else if k = "chapter" then a.chapter
  else if k = "color" then a.color
  else if k = "text" then a.text
  else a.note

/-- Model of AnnotationExtractor._format_annotation (source line 66). The
Python function mutates a.text in place when the marker is a heading token
and join_titles is set; the model returns the produced string together
with the post-call state of the record. The marker variable carries the
name of the leading token looked up in the color map. -/
def format_annot (cfg : Config) (a : Annot) (indent : String) : String × Annot :=
  let marker := (List.lookup a.color cfg.color_map).getD ""
  let a :=
    if (marker = "#" || marker = "##" || marker = "###" || marker = "####") && cfg.join_titles
    then { a with text := joinSplit a.text } else a
  let markerSp := if marker ≠ "" then marker ++ " " else marker
  let fmtd := indent ++ "- " ++ markerSp ++ a.text
  let fmtd := if cfg.include_chapter_in_notes then fmtd ++ " (Chapter '" ++ a.chapter ++ "')" else fmtd
  let fmtd := if cfg.include_date_in_notes then fmtd ++ "(" ++ a.date ++ ")" else fmtd
  let fmtd :=
    if a.note ≠ "" then
      let note_icon := (List.lookup "note" cfg.color_map).getD ""
      let note_icon := if note_icon ≠ "" then note_icon ++ " " else note_icon
      fmtd ++ "\n" ++ indent ++ "    - " ++ note_icon ++ a.note
    else fmtd
  (fmtd, a)

/-- The string produced by one formatting call. -/
def format_annot_str (cfg : Config) (a : Annot) (indent : String) : String :=
  (format_annot cfg a indent).1

/-- Comparison passed to sorted(annotations, key=key): compare the chosen
field. Python compares strings lexicographically by code point, exactly as
the Lean String order does. -/
def keyLe (kf : Annot → String) (x y : Annot) : Bool :=
  decide (kf x ≤ kf y)

/-- Model of itertools.groupby followed by list(...): split a list into
maximal runs of consecutive elements with equal key, pairing each run with
its key value. -/
def runs (kf : Annot → String) : List Annot → List (String × List Annot)
  | [] => []
  | a :: as =>
    (kf a, a :: as.takeWhile (fun b => kf b == kf a)) ::
      runs kf (as.dropWhile (fun b => kf b == kf a))
termination_by l => l.length
decreasing_by
  have h := (List.dropWhile_sublist (l := as) (fun b => kf b == kf a)).length_le
  simp [List.length_cons]
  omega

/-- Model of Python dict assignment groups[k] = v: overwriting an existing
key keeps its position, a new key is appended at the end. -/
def dictInsert (m : List (String × List Annot)) (k : String) (v : List Annot) :
    List (String × List Annot) :=
  if (List.lookup k m).isSome then
    m.map (fun p => if p.1 = k then (k, v) else p)
  else m ++ [(k, v)]

/-- The dict built by the source loop for k, g in groupby(...), in
iteration order. -/
def dictOf (entries : List (String × List Annot)) : List (String × List Annot) :=
  entries.foldl (fun m p => dictInsert m p.1 p.2) []

/-- The key values of the runs of a list, in run order. -/
def runKeys (kf : Annot → String) (l : List Annot) : List String :=
  (runs kf l).map Prod.fst

/-- The heading line emitted for one group value: the source computes
level as the indent length divided by 4 and emits the indent, a dash, a
run of level + 1 hash marks, a space and the value. -/
def headingLine (indent : String) (v : String) : String :=
  indent ++ "- " ++ String.mk (List.replicate (indent.length / 4 + 1) '#') ++ " " ++ v

/-- Body of the source loop for group, annotations in groups.items():
emit the heading line of each group followed by the recursively produced
lines; recFn stands for the recursive call on the remaining group keys. -/
def dumpGroups (recFn : List Annot → String → Except String (List String))
    (indent : String) : List (String × List Annot) → Except String (List String)
  | [] => Except.ok []
  | (g, anns) :: more => do
    let sub ← recFn anns (indent ++ "    ")
    let tl ← dumpGroups recFn indent more
    Except.ok ((headingLine indent g :: sub) ++ tl)

/-- Model of AnnotationExtractor.group_and_dump (source line 112). When
group_keys is non-empty, Python evaluates hasattr(annotations[0], ...),
which raises IndexError on an empty annotation list; the model returns
that error. Python sorted is a stable sort, modelled by List.mergeSort. -/
def group_and_dump (cfg : Config) : List String → List Annot → String → Except String (List String)
  | [], anns, indent => Except.ok (anns.map (fun a => format_annot_str cfg a indent))
  | _ :: _, [], _ => Except.error "IndexError: list index out of range"
  | k :: rest, a :: as, indent =>
    if k ∈ annotFields then
      dumpGroups (fun g i => group_and_dump cfg rest g i) indent
        (dictOf (runs (fun x => getField x k)
          ((a :: as).mergeSort (keyLe (fun x => getField x k)))))
    else Except.ok ((a :: as).map (fun x => format_annot_str cfg x indent))
termination_by keys _ _ => keys.length
decreasing_by
  simp [List.length_cons]

/-- Insert a value into a strictly ascending list of distinct values,
keeping it strictly ascending. -/
def insertVal (v : String) : List String → List String
  | [] => [v]
  | w :: ws => if v = w then w :: ws else if v < w then v :: w :: ws else w :: insertVal v ws

/-- The distinct values of a key over a list, in ascending order. -/
def sortedVals (kf : Annot → String) (anns : List Annot) : List String :=
  (anns.map kf).foldr insertVal []

/-- Heading count contributed by one grouping level: one heading per
distinct value, plus the count recFn of the levels below each group. -/
def countHeads (recFn : List Annot → Nat) (kf : Annot → String) (anns : List Annot) :
    List String → Nat
  | [] => 0
  | v :: vs => (1 + recFn (anns.filter (fun a => kf a == v))) + countHeads recFn kf anns vs

/-- Total number of heading lines group_and_dump emits: one per distinct
value of each grouping key actually applied (a key is applied when it is a
field name and the list at that level is non-empty). -/
def numHeadings : List String → List Annot → Nat
  | [], _ => 0
  | _ :: _, [] => 0
  | k :: rest, a :: as =>
    if k ∈ annotFields then
      countHeads (fun g => numHeadings rest g) (fun x => getField x k) (a :: as)
        (sortedVals (fun x => getField x k) (a :: as))
    else 0
termination_by keys _ => keys.length
decreasing_by
  simp [List.length_cons]

/-- The line list of an Except result; an error contributes no lines. -/
def okLines : Except String (List String) → List String
  | Except.ok ls => ls
  | Except.error _ => []

/-- Normalisation of the group_by option at the start of generate_markdown:
a bare string becomes a one-element list. -/
def normalizeGroupBy : GroupBy → List String
  | GroupBy.one s => [s]
  | GroupBy.many l => l

/-- Model of AnnotationExtractor.generate_markdown (source line 144): with
no records it returns None (modelled as none); otherwise it emits the
four metadata header lines when configured, then the renderer's lines,
joined by newlines. -/
def generate_markdown (cfg : Config) (md : MetaData) (anns : List Annot) :
    Except String (Option String) :=
  if anns.isEmpty then Except.ok none
  else do
    let metaLines :=
      if cfg.include_metadata then
        ["- title:: \"" ++ md.title ++ "\"",
         "  author:: \"" ++ md.author ++ "\"",
         "  source:: \"" ++ md.source ++ "\"",
         "  imported:: " ++ md.imported]
      else []
    let body ← group_and_dump cfg (normalizeGroupBy cfg.group_by) anns ""
    Except.ok (some (String.intercalate "\n" (metaLines ++ body)))

/-- One markup node carrying a single highlight, as the scraper sees it:
the text of each of the four named descendant nodes, and the class list of
the color marker node; a missing descendant is none. -/
structure AnnotElem where
  date : Option String
  chapter : Option String
  colorClasses : Option (List String)
  text : Option String
  note : Option String

/-- The parsed markup document, reduced to what the source reads from it:
the list of highlight nodes, the text of the first h1 and h2 nodes, and
the text of the first node with class citation, when present. -/
structure HtmlDoc where
  annotElems : List AnnotElem
  h1 : Option String
  h2 : Option String
  citation : Option String

/-- Model of AnnotationExtractor._extract_annotation (source line 57): read
the five descendant values, strip the four text values, and take the last
class token as the color. A missing descendant makes Python dereference
None (AttributeError); an empty class list makes the index -1 fail. -/
def extract_annot_elem (e : AnnotElem) : Except String Annot :=
  match e.date, e.chapter, e.colorClasses, e.text, e.note with
  | some d, some ch, some cls, some t, some n =>
    match cls.getLast? with
    | some c => Except.ok ⟨pyStrip d, pyStrip ch, c, pyStrip t, pyStrip n⟩
    | none => Except.error "IndexError: list index out of range"
  | _, _, _, _, _ => Except.error "AttributeError: NoneType has no such attribute"

/-- Helper extract_if_not_none of the source (line 92): the stripped text
of a node, or the placeholder when the node is absent. -/
def extract_if_not_none : Option String → String
  | some t => pyStrip t
  | none => "Not specified"

/-- Model of AnnotationExtractor._extract_annotations_from_html (source
line 86): extract every highlight record, then title, author and source
text; when the citation text was found, keep only its first physical line,
stripped. The imported timestamp is supplied by the caller. -/
def extract_from_html (doc : HtmlDoc) (now : String) :
    Except String (MetaData × List Annot) := do
  let result ← doc.annotElems.mapM extract_annot_elem
  let title := extract_if_not_none doc.h1
  let author := extract_if_not_none doc.h2
  let ref := extract_if_not_none doc.citation
  let ref :=
    if ref ≠ "Not specified" then pyStrip (((ref.splitOn "\n").headD "")) else ref
  Except.ok ({ title := title, author := author, source := ref, imported := now }, result)

/-- What dump_markdown does with its argument, besides printing a
confirmation message. -/
inductive DumpEffect where
  | toStdout (s : String)
  | toFile (fname : String) (content : String) (append : Bool)
  deriving DecidableEq

/-- Python str() of the optional document, as print would render it. -/
def pyStrOfOpt : Option String → String
  | none => "None"
  | some s => s

/-- Model of AnnotationExtractor.dump_markdown (source line 206). In
stdout mode print renders None as the string "None". In file mode the
file is first opened (created or truncated for mode w) and f.write(md)
raises TypeError when md is None, because generate_markdown returned no
document; a string document is written normally. Filename sanitisation is
an external library call and is not modelled. -/
def dump_markdown (cfg : Config) (md : Option String) (fname : String) :
    Except String DumpEffect :=
  if cfg.dump_stdout then Except.ok (DumpEffect.toStdout (pyStrOfOpt md))
  else
    match md with
    | none => Except.error "TypeError: write() argument must be str, not NoneType"
    | some s => Except.ok (DumpEffect.toFile fname s cfg.append_file)

/-- The per-message body of the loop in process_emails (source line 199):
parse the message's markup, build the document, and dump it under the
title-author filename. There is no guard between generate_markdown and
dump_markdown. -/
def process_message (cfg : Config) (doc : HtmlDoc) (now : String) :
    Except String DumpEffect := do
  let parsed ← extract_from_html doc now
  let md ← generate_markdown cfg parsed.1 parsed.2
  let fname := parsed.1.title ++ "-" ++ parsed.1.author ++ "-Notes.md"
  dump_markdown cfg md fname

/-! ### Decomposition of the formatter output

The following definitions name the pieces of the string built by
format_annot, so that theorems can speak about the marker, the emitted
text, the optional tags and the note line separately. -/

/-- The marker resolved from the color map; an absent key yields "". -/
def markerOf (cfg : Config) (a : Annot) : String :=
  (List.lookup a.color cfg.color_map).getD ""

/-- The collapse condition of the formatter: the marker is one of the four
heading tokens and join_titles is set. -/
def headingJoin (cfg : Config) (a : Annot) : Bool :=
  (markerOf cfg a = "#" || markerOf cfg a = "##" || markerOf cfg a = "###"
    || markerOf cfg a = "####") && cfg.join_titles

/-- The marker followed by one space when it is non-empty. -/
def markerSp (cfg : Config) (a : Annot) : String :=
  if markerOf cfg a ≠ "" then markerOf cfg a ++ " " else markerOf cfg a

/-- The text as emitted: collapsed exactly under the heading condition. -/
def emittedText (cfg : Config) (a : Annot) : String :=
  if headingJoin cfg a then joinSplit a.text else a.text

/-- The record as left behind by one formatting call: the text field is
overwritten with its collapsed form under the heading condition, and
nothing else changes. -/
def updAnnot (cfg : Config) (a : Annot) : Annot :=
  if headingJoin cfg a then { a with text := joinSplit a.text } else a

/-- The optional inline chapter tag. -/
def chapterPart (cfg : Config) (a : Annot) : String :=
  if cfg.include_chapter_in_notes then " (Chapter '" ++ a.chapter ++ "')" else ""

/-- The optional inline date tag. -/
def datePart (cfg : Config) (a : Annot) : String :=
  if cfg.include_date_in_notes then "(" ++ a.date ++ ")" else ""

/-- The note icon resolved from the reserved color-map key "note",
followed by one space when it is non-empty. -/
def noteIconSp (cfg : Config) : String :=
  let note_icon := (List.lookup "note" cfg.color_map).getD ""
  if note_icon ≠ "" then note_icon ++ " " else note_icon

/-- The second line emitted for a non-empty note: the current indent plus
four spaces, a dash, the optional icon, and the note text. -/
def noteLine (cfg : Config) (a : Annot) (indent : String) : String :=
  indent ++ "    - " ++ noteIconSp cfg ++ a.note

/-- The first line emitted for a record. -/
def firstLine (cfg : Config) (a : Annot) (indent : String) : String :=
  indent ++ "- " ++ markerSp cfg a ++ emittedText cfg a ++ chapterPart cfg a ++ datePart cfg a

/-! ### Lemmas about the whitespace splitter and joiner -/

theorem data_mk (l : List Char) : (String.mk l).data = l := rfl

theorem takeWhile_append_all {p : Char → Bool} :
    ∀ (w l : List Char), (∀ c ∈ w, p c = true) → (w ++ l).takeWhile p = w ++ l.takeWhile p
  | [], _, _ => rfl
  | c :: cs, l, h => by
    have hc : p c = true := h c (by simp)
    simp only [List.cons_append, List.takeWhile_cons, hc, if_true]
    rw [takeWhile_append_all cs l (fun d hd => h d (by simp [hd]))]

theorem dropWhile_append_all {p : Char → Bool} :
    ∀ (w l : List Char), (∀ c ∈ w, p c = true) → (w ++ l).dropWhile p = l.dropWhile p
  | [], _, _ => rfl
  | c :: cs, l, h => by
    have hc : p c = true := h c (by simp)
    simp only [List.cons_append, List.dropWhile_cons, hc, if_true]
    exact dropWhile_append_all cs l (fun d hd => h d (by simp [hd]))

/-- Each word produced by the splitter is non-empty and free of
whitespace characters. -/
theorem pyWords_mem (l : List Char) :
    ∀ w ∈ pyWords l, w ≠ [] ∧ ∀ c ∈ w, isPyWs c = false := by
  induction l using pyWords.induct with
  | case1 => simp [pyWords]
  | case2 c cs hc ih =>
    intro w hw
    rw [pyWords.eq_2, if_pos hc] at hw
    exact ih w hw
  | case3 c cs hc ih =>
    intro w hw
    rw [pyWords.eq_2, if_neg hc] at hw
    rcases List.mem_cons.mp hw with hw | hw
    · subst hw
      refine ⟨by simp, ?_⟩
      intro d hd
      rcases List.mem_cons.mp hd with hd | hd
      · subst hd
        exact Bool.not_eq_true _ ▸ by simpa using hc
      · have := List.mem_takeWhile_imp hd
        simpa using this
    · exact ih w hw

/-- Splitting a single non-empty whitespace-free word yields that word. -/
theorem pyWords_word {w : List Char} (hw : w ≠ [])
    (hall : ∀ c ∈ w, isPyWs c = false) : pyWords w = [w] := by
  cases w with
  | nil => exact absurd rfl hw
  | cons c cs =>
    have hc : isPyWs c = false := hall c (by simp)
    have hcs : ∀ d ∈ cs, (fun d => !isPyWs d) d = true := by
      intro d hd
      simp [hall d (by simp [hd])]
    rw [pyWords.eq_2, if_neg (by simp [hc])]
    have ht : cs.takeWhile (fun d => !isPyWs d) = cs := by
      have := takeWhile_append_all (p := fun d => !isPyWs d) cs [] hcs
      simpa using this
    have hd : cs.dropWhile (fun d => !isPyWs d) = [] := by
      have := dropWhile_append_all (p := fun d => !isPyWs d) cs [] hcs
      simpa using this
    rw [ht, hd, pyWords.eq_1]

/-- Splitting a non-empty whitespace-free word, a space, and a remainder
yields the word followed by the splitting of the remainder. -/
theorem pyWords_word_append {w l : List Char} (hw : w ≠ [])
    (hall : ∀ c ∈ w, isPyWs c = false) :
    pyWords (w ++ ' ' :: l) = w :: pyWords l := by
  cases w with
  | nil => exact absurd rfl hw
  | cons c cs =>
    have hc : isPyWs c = false := hall c (by simp)
    have hcs : ∀ d ∈ cs, (fun d => !isPyWs d) d = true := by
      intro d hd
      simp [hall d (by simp [hd])]
    rw [List.cons_append, pyWords.eq_2, if_neg (by simp [hc])]
    rw [takeWhile_append_all cs (' ' :: l) hcs, dropWhile_append_all cs (' ' :: l) hcs]
    have hsp : isPyWs ' ' = true := by decide
    rw [List.takeWhile_cons, List.dropWhile_cons]
    simp only [hsp, Bool.not_true, Bool.false_eq_true, if_false, List.append_nil]
    rw [pyWords.eq_2, if_pos hsp]

/-- Splitting the joining of non-empty whitespace-free words recovers the
words: the joiner and the splitter are inverse on canonical word lists. -/
theorem pyWords_joinWords :
    ∀ ws : List (List Char), (∀ w ∈ ws, w ≠ [] ∧ ∀ c ∈ w, isPyWs c = false) →
      pyWords (joinWords ws) = ws
  | [], _ => by simp [joinWords, pyWords]
  | [w], h => by
    have hw := h w (by simp)
    simpa [joinWords] using pyWords_word hw.1 hw.2
  | w :: u :: ws, h => by
    have hw := h w (by simp)
    have hjoin : joinWords (w :: u :: ws) = w ++ ' ' :: joinWords (u :: ws) := by
      simp [joinWords]
    rw [hjoin, pyWords_word_append hw.1 hw.2,
      pyWords_joinWords (u :: ws) (fun v hv => h v (by simp at hv ⊢; tauto))]

/-- Collapsing whitespace is idempotent. -/
theorem joinSplit_idem (s : String) : joinSplit (joinSplit s) = joinSplit s := by
  show String.mk (joinWords (pyWords (String.mk (joinWords (pyWords s.data))).data)) = _
  rw [data_mk, pyWords_joinWords _ (pyWords_mem s.data)]
  rfl

/-- Collapsing whitespace does not change the word sequence. -/
theorem pyWords_joinSplit (s : String) : pyWords (joinSplit s).data = pyWords s.data := by
  show pyWords (String.mk (joinWords (pyWords s.data))).data = _
  rw [data_mk, pyWords_joinWords _ (pyWords_mem s.data)]

/-- Every character of a joined word list is a space or a word character. -/
theorem mem_joinWords {c : Char} :
    ∀ {ws : List (List Char)}, c ∈ joinWords ws → c = ' ' ∨ ∃ w ∈ ws, c ∈ w := by
  intro ws hc
  cases ws with
  | nil => simp [joinWords] at hc
  | cons w ws =>
    rw [joinWords] at hc
    rcases List.mem_append.mp hc with hc | hc
    · exact Or.inr ⟨w, by simp, hc⟩
    · rcases List.mem_flatMap.mp hc with ⟨u, hu, hcu⟩
      rcases List.mem_cons.mp hcu with hcu | hcu
      · exact Or.inl hcu
      · exact Or.inr ⟨u, by simp [hu], hcu⟩

/-- The collapsed text contains no newline character. -/
theorem joinSplit_nl_free (s : String) : '\n' ∉ (joinSplit s).data := by
  intro hmem
  rw [joinSplit, data_mk] at hmem
  rcases mem_joinWords hmem with h | ⟨w, hw, hcw⟩
  · exact absurd h (by decide)
  · have := (pyWords_mem s.data w hw).2 '\n' hcw
    simp [isPyWs] at this

/-! ### Shape of the formatter output -/

/-- One formatting call produces the first line, the note line when the
note is non-empty, and the updated record. -/
theorem format_annot_eq (cfg : Config) (a : Annot) (indent : String) :
    format_annot cfg a indent =
      (firstLine cfg a indent ++ (if a.note = "" then "" else "\n" ++ noteLine cfg a indent),
        updAnnot cfg a) := by
  have h1 : ∀ s : String, ("')" : String) ++ ("(" ++ s) = "')(" ++ s := fun _ => rfl
  have h2 : ∀ s : String, (")" : String) ++ ("\n" ++ s) = ")\n" ++ s := fun _ => rfl
  have h3 : ∀ s : String, ("')" : String) ++ ("\n" ++ s) = "')\n" ++ s := fun _ => rfl
  simp only [format_annot, firstLine, updAnnot, emittedText, headingJoin, markerSp, markerOf,
    chapterPart, datePart, noteLine, noteIconSp]
  split_ifs <;> simp_all [String.append_assoc, h1, h2, h3]

theorem updAnnot_color (cfg : Config) (a : Annot) : (updAnnot cfg a).color = a.color := by
  unfold updAnnot
  split <;> rfl

theorem updAnnot_chapter (cfg : Config) (a : Annot) : (updAnnot cfg a).chapter = a.chapter := by
  unfold updAnnot
  split <;> rfl

theorem updAnnot_date (cfg : Config) (a : Annot) : (updAnnot cfg a).date = a.date := by
  unfold updAnnot
  split <;> rfl

theorem updAnnot_note (cfg : Config) (a : Annot) : (updAnnot cfg a).note = a.note := by
  unfold updAnnot
  split <;> rfl

theorem markerOf_updAnnot (cfg : Config) (a : Annot) :
    markerOf cfg (updAnnot cfg a) = markerOf cfg a := by
  unfold markerOf
  rw [updAnnot_color]

theorem headingJoin_updAnnot (cfg : Config) (a : Annot) :
    headingJoin cfg (updAnnot cfg a) = headingJoin cfg a := by
  unfold headingJoin
  rw [markerOf_updAnnot]

theorem updAnnot_pos (cfg : Config) (a : Annot) (h : headingJoin cfg a = true) :
    updAnnot cfg a = { a with text := joinSplit a.text } := by
  unfold updAnnot
  rw [h]
  simp

theorem updAnnot_neg (cfg : Config) (a : Annot) (h : headingJoin cfg a = false) :
    updAnnot cfg a = a := by
  unfold updAnnot
  rw [h]
  simp

theorem updAnnot_idem (cfg : Config) (a : Annot) :
    updAnnot cfg (updAnnot cfg a) = updAnnot cfg a := by
  by_cases h : headingJoin cfg a = true
  · have h2 : headingJoin cfg (updAnnot cfg a) = true := by rw [headingJoin_updAnnot, h]
    rw [updAnnot_pos cfg _ h2, updAnnot_pos cfg _ h]
    simp [joinSplit_idem]
  · have hf : headingJoin cfg a = false := by simpa using h
    rw [updAnnot_neg cfg _ hf, updAnnot_neg cfg _ hf]

theorem emittedText_updAnnot (cfg : Config) (a : Annot) :
    emittedText cfg (updAnnot cfg a) = emittedText cfg a := by
  by_cases h : headingJoin cfg a = true
  · have h2 : headingJoin cfg (updAnnot cfg a) = true := by rw [headingJoin_updAnnot, h]
    unfold emittedText
    rw [h, h2]
    simp only [if_pos rfl]
    rw [updAnnot_pos cfg _ h]
    show joinSplit (joinSplit a.text) = joinSplit a.text
    exact joinSplit_idem a.text
  · have hf : headingJoin cfg a = false := by simpa using h
    rw [updAnnot_neg cfg _ hf]

theorem firstLine_updAnnot (cfg : Config) (a : Annot) (indent : String) :
    firstLine cfg (updAnnot cfg a) indent = firstLine cfg a indent := by
  unfold firstLine markerSp chapterPart datePart
  rw [markerOf_updAnnot, emittedText_updAnnot, updAnnot_chapter, updAnnot_date]

theorem noteLine_updAnnot (cfg : Config) (a : Annot) (indent : String) :
    noteLine cfg (updAnnot cfg a) indent = noteLine cfg a indent := by
  unfold noteLine
  rw [updAnnot_note]

/-- Claim C10: formatting the same record twice in succession yields the
same string both times, and the second call leaves the record exactly as
the first call left it: the in-place whitespace collapse is idempotent. -/
theorem c10_format_annot_idem (cfg : Config) (a : Annot) (indent : String) :
    format_annot cfg ((format_annot cfg a indent).2) indent = format_annot cfg a indent := by
  rw [format_annot_eq cfg a indent]
  show format_annot cfg (updAnnot cfg a) indent = _
  rw [format_annot_eq cfg (updAnnot cfg a) indent]
  rw [firstLine_updAnnot, noteLine_updAnnot, updAnnot_idem, updAnnot_note]

/-- Claim C8: when the color maps to one of the four heading tokens and
join_titles is set, the formatter overwrites the record's text with its
whitespace-collapsed form (same word sequence, single spaces) and emits
the collapsed text; under any other marker, or with join_titles unset, the
record is left unchanged and the original text is emitted verbatim. -/
theorem c8_heading_join_collapse (cfg : Config) (a : Annot) (indent : String) :
    (format_annot cfg a indent).2
        = (if headingJoin cfg a then { a with text := joinSplit a.text } else a)
      ∧ pyWords (joinSplit a.text).data = pyWords a.text.data
      ∧ (format_annot cfg a indent).1
          = indent ++ "- " ++ markerSp cfg a
              ++ (if headingJoin cfg a then joinSplit a.text else a.text)
              ++ chapterPart cfg a ++ datePart cfg a
              ++ (if a.note = "" then "" else "\n" ++ noteLine cfg a indent) := by
  refine ⟨?_, pyWords_joinSplit a.text, ?_⟩
  · rw [format_annot_eq]
    rfl
  · rw [format_annot_eq]
    show firstLine cfg a indent ++ _ = _
    unfold firstLine emittedText
    simp [String.append_assoc]

/-! ### Physical line structure of the formatter output -/

theorem splitNL_no_nl : ∀ {l : List Char}, '\n' ∉ l → splitNL l = [l] := by
  intro l h
  induction l with
  | nil => rfl
  | cons c cs ih =>
    have hc : ¬ c = '\n' := fun e => h (by simp [e])
    have hcs : '\n' ∉ cs := fun m => h (by simp [m])
    simp [splitNL, hc, ih hcs]

theorem splitNL_append {l₁ l₂ : List Char} (h : '\n' ∉ l₁) :
    splitNL (l₁ ++ '\n' :: l₂) = l₁ :: splitNL l₂ := by
  induction l₁ with
  | nil => simp [splitNL]
  | cons c cs ih =>
    have hc : ¬ c = '\n' := fun e => h (by simp [e])
    have hcs : '\n' ∉ cs := fun m => h (by simp [m])
    simp [splitNL, hc, ih hcs]

theorem nl_not_mem_append {s t : String} (hs : '\n' ∉ s.data) (ht : '\n' ∉ t.data) :
    '\n' ∉ (s ++ t).data := by
  intro h
  rw [String.data_append] at h
  rcases List.mem_append.mp h with h | h
  · exact hs h
  · exact ht h

theorem firstLine_nl_free (cfg : Config) (a : Annot) (indent : String)
    (hIndent : '\n' ∉ indent.data) (hMarker : '\n' ∉ (markerOf cfg a).data)
    (hText : '\n' ∉ a.text.data) (hChapter : '\n' ∉ a.chapter.data)
    (hDate : '\n' ∉ a.date.data) : '\n' ∉ (firstLine cfg a indent).data := by
  have hMarkerSp : '\n' ∉ (markerSp cfg a).data := by
    unfold markerSp
    split
    · exact nl_not_mem_append hMarker (by decide)
    · exact hMarker
  have hEm : '\n' ∉ (emittedText cfg a).data := by
    unfold emittedText
    split
    · exact joinSplit_nl_free a.text
    · exact hText
  have hChP : '\n' ∉ (chapterPart cfg a).data := by
    unfold chapterPart
    split
    · exact nl_not_mem_append (nl_not_mem_append (by decide) hChapter) (by decide)
    · decide
  have hDaP : '\n' ∉ (datePart cfg a).data := by
    unfold datePart
    split
    · exact nl_not_mem_append (nl_not_mem_append (by decide) hDate) (by decide)
    · decide
  unfold firstLine
  exact nl_not_mem_append (nl_not_mem_append (nl_not_mem_append (nl_not_mem_append
    (nl_not_mem_append hIndent (by decide)) hMarkerSp) hEm) hChP) hDaP

/-- Claim C7 (counterexample): a highlight whose text itself contains a
newline shows that an empty note does not guarantee a single physical
line: here the note is empty yet the block spans two physical lines. -/
theorem c7_counterexample :
    ((⟨"", "", "y", "a\nb", ""⟩ : Annot).note = "")
      ∧ (strLines (format_annot_str ({} : Config) ⟨"", "", "y", "a\nb", ""⟩ "")).length = 2 :=
  ⟨rfl, rfl⟩

/-- Claim C7 (amended): provided none of the interpolated strings (the
indent, the marker, the text, the chapter, the date, the note icon, the
note) contains a newline character, formatting yields exactly one physical
line when the note is empty, and exactly two when it is non-empty, the
second being the current indent plus four spaces, a dash and a space, the
note icon (followed by a space when non-empty), and the note text. -/
theorem c7_note_lines (cfg : Config) (a : Annot) (indent : String)
    (hIndent : '\n' ∉ indent.data) (hMarker : '\n' ∉ (markerOf cfg a).data)
    (hText : '\n' ∉ a.text.data) (hChapter : '\n' ∉ a.chapter.data)
    (hDate : '\n' ∉ a.date.data) (hIcon : '\n' ∉ (noteIconSp cfg).data)
    (hNote : '\n' ∉ a.note.data) :
    strLines (format_annot_str cfg a indent)
      = if a.note = "" then [(firstLine cfg a indent).data]
        else [(firstLine cfg a indent).data,
              ((indent ++ "    ") ++ "- " ++ noteIconSp cfg ++ a.note).data] := by
  have hFL := firstLine_nl_free cfg a indent hIndent hMarker hText hChapter hDate
  have h4 : ∀ s : String, ("    " : String) ++ ("- " ++ s) = "    - " ++ s := fun _ => rfl
  rw [format_annot_str, format_annot_eq]
  show strLines (firstLine cfg a indent ++ _) = _
  by_cases hn : a.note = ""
  · rw [if_pos hn, if_pos hn]
    rw [String.append_empty, strLines, splitNL_no_nl hFL]
  · rw [if_neg hn, if_neg hn]
    have hdata : (firstLine cfg a indent ++ ("\n" ++ noteLine cfg a indent)).data
        = (firstLine cfg a indent).data ++ '\n' :: (noteLine cfg a indent).data := by
      simp [String.data_append]
    have hNL : '\n' ∉ (noteLine cfg a indent).data := by
      unfold noteLine
      exact nl_not_mem_append (nl_not_mem_append (nl_not_mem_append hIndent (by decide)) hIcon) hNote
    rw [strLines, hdata, splitNL_append hFL, splitNL_no_nl hNL]
    have : ((indent ++ "    ") ++ "- " ++ noteIconSp cfg ++ a.note) = noteLine cfg a indent := by
      unfold noteLine
      simp only [String.append_assoc]
      rw [h4]
    rw [this]

/-- Claim C7 (witness): the amended statement at a concrete record with a
non-empty note. -/
theorem c7_witness :
    (strLines (format_annot_str ({} : Config) ⟨"", "", "y", "T", "N"⟩ "")).length = 2 := by
  rw [c7_note_lines ({} : Config) ⟨"", "", "y", "T", "N"⟩ "" (by decide) (by decide)
    (by decide) (by decide) (by decide) (by decide) (by decide)]
  rfl

/-- Claim C9: a color key absent from the color map gives an empty marker,
so the emitted line starts with exactly the indent, a dash and one space,
and the text, with no marker token, no extra space before the text, and no
whitespace collapse; the space after a marker is emitted only when the
marker is non-empty. The optional chapter and date tags and the note line
follow unchanged, so with those options off the first line is exactly the
indent, the dash and the text. -/
theorem c9_absent_color (cfg : Config) (a : Annot) (indent : String)
    (hAbsent : List.lookup a.color cfg.color_map = none) :
    format_annot_str cfg a indent
      = indent ++ "- " ++ a.text ++ chapterPart cfg a ++ datePart cfg a
          ++ (if a.note = "" then "" else "\n" ++ noteLine cfg a indent) := by
  have hm : markerOf cfg a = "" := by
    rw [markerOf, hAbsent]
    rfl
  have hhj : headingJoin cfg a = false := by simp [headingJoin, hm]
  rw [format_annot_str, format_annot_eq]
  show firstLine cfg a indent ++ _ = _
  unfold firstLine markerSp emittedText
  rw [hm, hhj]
  simp [String.append_assoc]

/-- Claim C9 (witness): the statement at a concrete record whose color is
not in the (empty) color map. -/
theorem c9_witness :
    format_annot_str ({} : Config) ⟨"d", "c", "blue", "T", "N"⟩ ""
      = "" ++ "- " ++ "T" ++ chapterPart ({} : Config) ⟨"d", "c", "blue", "T", "N"⟩
          ++ datePart ({} : Config) ⟨"d", "c", "blue", "T", "N"⟩
          ++ (if ("N" : String) = "" then ""
              else "\n" ++ noteLine ({} : Config) ⟨"d", "c", "blue", "T", "N"⟩ "") :=
  c9_absent_color ({} : Config) ⟨"d", "c", "blue", "T", "N"⟩ "" rfl

/-! ### The grouping pipeline: stable sort, runs and the group dictionary -/

theorem keyLe_trans (kf : Annot → String) :
    ∀ x y z : Annot, keyLe kf x y = true → keyLe kf y z = true → keyLe kf x z = true := by
  intro x y z hxy hyz
  simp only [keyLe, decide_eq_true_eq] at *
  exact le_trans hxy hyz

theorem keyLe_total (kf : Annot → String) :
    ∀ x y : Annot, (keyLe kf x y || keyLe kf y x) = true := by
  intro x y
  simp only [keyLe, Bool.or_eq_true, decide_eq_true_eq]
  exact le_total _ _

/-- In a key-sorted list, every element surviving the dropWhile of the
head's key run has a key strictly above a lower bound of the whole list. -/
theorem dropWhile_keys_gt (kf : Annot → String) (m : String) :
    ∀ as : List Annot, as.Pairwise (fun x y => keyLe kf x y = true) →
      (∀ b ∈ as, m ≤ kf b) →
      ∀ b ∈ as.dropWhile (fun b => kf b == m), m < kf b := by
  intro as
  induction as with
  | nil =>
    intro _ _ b hb
    simp at hb
  | cons c cs ih =>
    intro hsort hle b hb
    rw [List.dropWhile_cons] at hb
    by_cases hc : (kf c == m) = true
    · rw [if_pos hc] at hb
      exact ih (List.pairwise_cons.mp hsort).2 (fun x hx => hle x (by simp [hx])) b hb
    · rw [if_neg hc] at hb
      have hcm : m < kf c := by
        refine lt_of_le_of_ne (hle c (by simp)) ?_
        intro e
        exact hc (by simp [e.symm])
      rcases List.mem_cons.mp hb with rfl | hb
      · exact hcm
      · have hcb : kf c ≤ kf b := by
          have := (List.pairwise_cons.mp hsort).1 b hb
          simpa [keyLe, decide_eq_true_eq] using this
        exact lt_of_lt_of_le hcm hcb

/-- On a key-sorted list, the runs are exactly one run per distinct key,
each run pairing its key with the filter of the list at that exact key; in
addition the run keys are strictly ascending and cover exactly the keys of
the list. -/
theorem runs_sorted (kf : Annot → String) :
    ∀ t : List Annot, t.Pairwise (fun x y => keyLe kf x y = true) →
      runs kf t = (runKeys kf t).map (fun v => (v, t.filter (fun x => kf x == v)))
      ∧ List.Sorted (· < ·) (runKeys kf t)
      ∧ (∀ v, v ∈ runKeys kf t ↔ v ∈ t.map kf) := by
  intro t
  induction t using runs.induct kf with
  | case1 =>
    intro _
    refine ⟨by simp [runs, runKeys], by simp [runKeys, runs], by simp [runKeys, runs]⟩
  | case2 a as ih =>
    intro hsort
    have hpc := List.pairwise_cons.mp hsort
    have hale : ∀ b ∈ as, kf a ≤ kf b := by
      intro b hb
      have := hpc.1 b hb
      simpa [keyLe, decide_eq_true_eq] using this
    have hrest_sorted : (as.dropWhile (fun b => kf b == kf a)).Pairwise
        (fun x y => keyLe kf x y = true) :=
      List.Pairwise.sublist (List.dropWhile_sublist _) hpc.2
    have hgt : ∀ b ∈ as.dropWhile (fun b => kf b == kf a), kf a < kf b :=
      dropWhile_keys_gt kf (kf a) as hpc.2 hale
    obtain ⟨ih1, ih2, ih3⟩ := ih hrest_sorted
    have hsplit : as = as.takeWhile (fun b => kf b == kf a)
        ++ as.dropWhile (fun b => kf b == kf a) :=
      (List.takeWhile_append_dropWhile _ _).symm
    have hruncons : runs kf (a :: as)
        = (kf a, a :: as.takeWhile (fun b => kf b == kf a))
            :: runs kf (as.dropWhile (fun b => kf b == kf a)) := by
      rw [runs]
    have hkeyscons : runKeys kf (a :: as)
        = kf a :: runKeys kf (as.dropWhile (fun b => kf b == kf a)) := by
      rw [runKeys, hruncons, List.map_cons]
      rfl
    have hrestmem : ∀ v ∈ runKeys kf (as.dropWhile (fun b => kf b == kf a)), kf a < v := by
      intro v hv
      obtain ⟨b, hb, rfl⟩ := List.mem_map.mp ((ih3 v).mp hv)
      exact hgt b hb
    have htw : (as.takeWhile (fun b => kf b == kf a)).filter (fun x => kf x == kf a)
        = as.takeWhile (fun b => kf b == kf a) := by
      apply List.filter_eq_self.mpr
      intro b hb
      simpa using List.mem_takeWhile_imp hb
    have hfilter_head : (a :: as).filter (fun x => kf x == kf a)
        = a :: as.takeWhile (fun b => kf b == kf a) := by
      rw [List.filter_cons]
      have hself : (kf a == kf a) = true := by simp
      rw [if_pos hself]
      congr 1
      conv_lhs => rw [hsplit]
      rw [List.filter_append, htw]
      rw [List.filter_eq_nil_iff.mpr, List.append_nil]
      intro b hb hbeq
      exact absurd (by simpa using hbeq) (ne_of_gt (hgt b hb))
    have hfilter_rest : ∀ v, kf a < v →
        (a :: as).filter (fun x => kf x == v)
          = (as.dropWhile (fun b => kf b == kf a)).filter (fun x => kf x == v) := by
      intro v hv
      rw [List.filter_cons]
      have hav : ¬ (kf a == v) = true := by
        simp only [beq_iff_eq]
        exact fun e => absurd (e ▸ hv) (lt_irrefl _)
      rw [if_neg hav]
      conv_lhs => rw [hsplit]
      rw [List.filter_append]
      rw [List.filter_eq_nil_iff.mpr, List.nil_append]
      intro b hb hbeq
      have hbm : kf b = kf a := by simpa using List.mem_takeWhile_imp hb
      have : kf b = v := by simpa using hbeq
      exact absurd (this ▸ hbm ▸ hv) (lt_irrefl _)
    refine ⟨?_, ?_, ?_⟩
    · rw [hruncons, hkeyscons, List.map_cons, hfilter_head]
      congr 1
      rw [ih1]
      apply List.map_congr_left
      intro v hv
      rw [hfilter_rest v (hrestmem v hv)]
    · rw [hkeyscons]
      exact List.sorted_cons.mpr ⟨hrestmem, ih2⟩
    · intro v
      rw [hkeyscons]
      constructor
      · intro hv
        rcases List.mem_cons.mp hv with rfl | hv
        · simp
        · have := (ih3 v).mp hv
          obtain ⟨b, hb, rfl⟩ := List.mem_map.mp this
          exact List.mem_map.mpr ⟨b, by
            simp only [List.mem_cons]
            exact Or.inr ((List.dropWhile_sublist _).subset hb), rfl⟩
      · intro hv
        obtain ⟨b, hb, rfl⟩ := List.mem_map.mp hv
        rcases List.mem_cons.mp hb with rfl | hb
        · simp
        · conv at hb => rw [hsplit]
          rcases List.mem_append.mp hb with hb | hb
          · have : kf b = kf a := by simpa using List.mem_takeWhile_imp hb
            simp [this]
          · exact List.mem_cons.mpr (Or.inr ((ih3 (kf b)).mpr (List.mem_map.mpr ⟨b, hb, rfl⟩)))

theorem mem_insertVal (x v : String) :
    ∀ l : List String, x ∈ insertVal v l ↔ x = v ∨ x ∈ l := by
  intro l
  induction l with
  | nil => simp [insertVal]
  | cons w ws ih =>
    rw [insertVal]
    by_cases hvw : v = w
    · rw [if_pos hvw]
      subst hvw
      simp only [List.mem_cons]
      try tauto
    · rw [if_neg hvw]
      by_cases hlt : v < w
      · rw [if_pos hlt]
        simp only [List.mem_cons]
        try tauto
      · rw [if_neg hlt]
        simp only [List.mem_cons, ih]
        try tauto

theorem insertVal_sorted (v : String) :
    ∀ {l : List String}, List.Sorted (· < ·) l → List.Sorted (· < ·) (insertVal v l) := by
  intro l
  induction l with
  | nil =>
    intro _
    simp [insertVal]
  | cons w ws ih =>
    intro hs
    have hws := (List.sorted_cons.mp hs).2
    have hwlt := (List.sorted_cons.mp hs).1
    rw [insertVal]
    by_cases hvw : v = w
    · rw [if_pos hvw]
      exact hs
    · rw [if_neg hvw]
      by_cases hlt : v < w
      · rw [if_pos hlt]
        refine List.sorted_cons.mpr ⟨?_, hs⟩
        intro b hb
        rcases List.mem_cons.mp hb with rfl | hb
        · exact hlt
        · exact lt_trans hlt (hwlt b hb)
      · rw [if_neg hlt]
        refine List.sorted_cons.mpr ⟨?_, ih hws⟩
        intro b hb
        rcases (mem_insertVal b v ws).mp hb with rfl | hb
        · exact lt_of_le_of_ne (le_of_not_lt hlt) (Ne.symm hvw)
        · exact hwlt b hb

theorem sortedVals_sorted (kf : Annot → String) (anns : List Annot) :
    List.Sorted (· < ·) (sortedVals kf anns) := by
  rw [sortedVals]
  generalize anns.map kf = ks
  induction ks with
  | nil => simp
  | cons k ks ih => exact insertVal_sorted k ih

theorem mem_sortedVals (kf : Annot → String) (anns : List Annot) (x : String) :
    x ∈ sortedVals kf anns ↔ x ∈ anns.map kf := by
  rw [sortedVals]
  generalize anns.map kf = ks
  induction ks with
  | nil => simp
  | cons k ks ih =>
    rw [List.foldr_cons, mem_insertVal, ih, List.mem_cons]

theorem sorted_lt_nodup {l : List String} (h : List.Sorted (· < ·) l) : l.Nodup :=
  h.imp (fun hlt => ne_of_lt hlt)

/-- Two strictly ascending lists with the same members are equal. -/
theorem sorted_eq_of_mem_iff {l₁ l₂ : List String}
    (h₁ : List.Sorted (· < ·) l₁) (h₂ : List.Sorted (· < ·) l₂)
    (hm : ∀ x, x ∈ l₁ ↔ x ∈ l₂) : l₁ = l₂ := by
  haveI : IsAntisymm String (· < ·) := ⟨fun a b h h' => absurd h' (lt_asymm h)⟩
  have hperm : l₁.Perm l₂ :=
    (List.perm_ext_iff_of_nodup (sorted_lt_nodup h₁) (sorted_lt_nodup h₂)).mpr hm
  exact List.eq_of_perm_of_sorted hperm h₁ h₂

/-- Stability of the modelled sort: filtering the sorted list at one exact
key value gives the same sublist, in the same order, as filtering the
original list. -/
theorem mergeSort_filter_key (kf : Annot → String) (anns : List Annot) (v : String) :
    (anns.mergeSort (keyLe kf)).filter (fun x => kf x == v)
      = anns.filter (fun x => kf x == v) := by
  have hsub : List.Sublist (anns.filter (fun x => kf x == v)) anns := List.filter_sublist _
  have hpair : (anns.filter (fun x => kf x == v)).Pairwise
      (fun x y => keyLe kf x y = true) := by
    apply List.pairwise_of_forall_mem_list
    intro x hx y hy
    have hx' : kf x = v := by simpa using (List.mem_filter.mp hx).2
    have hy' : kf y = v := by simpa using (List.mem_filter.mp hy).2
    simp [keyLe, hx', hy']
  have hstable : List.Sublist (anns.filter (fun x => kf x == v)) (anns.mergeSort (keyLe kf)) :=
    List.sublist_mergeSort (keyLe_trans kf) (keyLe_total kf) hpair hsub
  have hperm : ((anns.mergeSort (keyLe kf)).filter (fun x => kf x == v)).Perm
      (anns.filter (fun x => kf x == v)) :=
    (List.mergeSort_perm anns _).filter _
  have hidem : (anns.filter (fun x => kf x == v)).filter (fun x => kf x == v)
      = anns.filter (fun x => kf x == v) := by
    apply List.filter_eq_self.mpr
    intro b hb
    exact (List.mem_filter.mp hb).2
  have hsub2 : List.Sublist (anns.filter (fun x => kf x == v))
      ((anns.mergeSort (keyLe kf)).filter (fun x => kf x == v)) := by
    have := hstable.filter (fun x => kf x == v)
    rwa [hidem] at this
  exact (hsub2.eq_of_length hperm.length_eq.symm).symm

/-- The run keys of the sorted list are exactly the ascending distinct key
values of the original list. -/
theorem runKeys_mergeSort (kf : Annot → String) (anns : List Annot) :
    runKeys kf (anns.mergeSort (keyLe kf)) = sortedVals kf anns := by
  have hsorted := List.sorted_mergeSort (keyLe_trans kf) (keyLe_total kf) anns
  obtain ⟨-, h2, h3⟩ := runs_sorted kf _ hsorted
  apply sorted_eq_of_mem_iff h2 (sortedVals_sorted kf anns)
  intro x
  rw [h3, mem_sortedVals]
  constructor
  · intro hx
    exact ((List.mergeSort_perm anns (keyLe kf)).map kf).mem_iff.mp hx
  · intro hx
    exact ((List.mergeSort_perm anns (keyLe kf)).map kf).mem_iff.mpr hx

/-- Sorting then grouping yields one entry per ascending distinct key
value, each entry carrying the records with that key in original order. -/
theorem runs_mergeSort (kf : Annot → String) (anns : List Annot) :
    runs kf (anns.mergeSort (keyLe kf))
      = (sortedVals kf anns).map (fun v => (v, anns.filter (fun x => kf x == v))) := by
  have hsorted := List.sorted_mergeSort (keyLe_trans kf) (keyLe_total kf) anns
  obtain ⟨h1, -, -⟩ := runs_sorted kf _ hsorted
  rw [h1, runKeys_mergeSort]
  apply List.map_congr_left
  intro v _
  exact congrArg (Prod.mk v) (mergeSort_filter_key kf anns v)

/-- Building the dict from entries with pairwise distinct keys appends
each entry in turn: the dict is the entry list itself. -/
theorem foldl_dictInsert (acc : List (String × List Annot)) :
    ∀ entries : List (String × List Annot),
      (acc.map Prod.fst ++ entries.map Prod.fst).Nodup →
      entries.foldl (fun m p => dictInsert m p.1 p.2) acc = acc ++ entries := by
  intro entries
  induction entries generalizing acc with
  | nil =>
    intro _
    simp
  | cons e es ih =>
    intro h
    have hparts := List.nodup_append.mp h
    have hnotin : e.1 ∉ acc.map Prod.fst := by
      intro hmem
      exact hparts.2.2 hmem (by simp)
    have hins : dictInsert acc e.1 e.2 = acc ++ [e] := by
      rw [dictInsert]
      have hnone : List.lookup e.1 acc = none := by
        apply List.lookup_eq_none_iff.mpr
        intro p hp
        simp only [bne_iff_ne]
        intro hpe
        exact hnotin (List.mem_map.mpr ⟨p, hp, hpe.symm⟩)
      rw [hnone]
      simp
    rw [List.foldl_cons, hins, ih (acc ++ [e]) (by simpa using h)]
    simp

theorem dictOf_eq_self {entries : List (String × List Annot)}
    (h : (entries.map Prod.fst).Nodup) : dictOf entries = entries := by
  rw [dictOf, foldl_dictInsert [] entries (by simpa using h)]
  simp

/-- A key value occurring in the list has a non-empty filter group. -/
theorem filter_key_ne_nil (kf : Annot → String) {anns : List Annot} {v : String}
    (hv : v ∈ anns.map kf) : anns.filter (fun x => kf x == v) ≠ [] := by
  obtain ⟨x, hx, rfl⟩ := List.mem_map.mp hv
  intro hnil
  have hmem : x ∈ anns.filter (fun y => kf y == kf x) :=
    List.mem_filter.mpr ⟨hx, by simp⟩
  rw [hnil] at hmem
  simp at hmem

/-- With a valid key and a non-empty list, group_and_dump renders one
entry per ascending distinct key value, each entry carrying the
original-order filter of the list at that value. -/
theorem group_and_dump_grouping (cfg : Config) (k : String) (rest : List String)
    (a : Annot) (as : List Annot) (indent : String) (hk : k ∈ annotFields) :
    group_and_dump cfg (k :: rest) (a :: as) indent
      = dumpGroups (fun g i => group_and_dump cfg rest g i) indent
          ((sortedVals (fun x => getField x k) (a :: as)).map
            (fun v => (v, (a :: as).filter (fun x => getField x k == v)))) := by
  rw [group_and_dump.eq_3, if_pos hk, runs_mergeSort]
  congr 1
  apply dictOf_eq_self
  rw [List.map_map]
  have hid : (Prod.fst ∘ fun v => (v, (a :: as).filter (fun x => getField x k == v)))
      = id := rfl
  rw [hid, List.map_id]
  exact sorted_lt_nodup (sortedVals_sorted _ _)

/-- dumpGroups with error-free recursive results produces, per entry, the
heading line followed by the recursive lines. -/
theorem dumpGroups_flatMap (recFn : List Annot → String → Except String (List String))
    (indent : String) :
    ∀ entries : List (String × List Annot),
      (∀ e ∈ entries, ∃ ls, recFn e.2 (indent ++ "    ") = Except.ok ls) →
      dumpGroups recFn indent entries
        = Except.ok (entries.flatMap
            (fun e => headingLine indent e.1 :: okLines (recFn e.2 (indent ++ "    ")))) := by
  intro entries
  induction entries with
  | nil =>
    intro _
    rfl
  | cons e es ih =>
    intro h
    obtain ⟨v, g⟩ := e
    obtain ⟨ls1, h1⟩ := h (v, g) (by simp)
    rw [dumpGroups.eq_2, h1, ih (fun x hx => h x (by simp [hx]))]
    have hok : okLines (recFn (v, g).2 (indent ++ "    ")) = ls1 := by
      rw [h1]
      rfl
    rw [List.flatMap_cons, hok]
    rfl

/-- With a non-empty list, group_and_dump never raises. -/
theorem group_and_dump_ok (cfg : Config) :
    ∀ (keys : List String) (anns : List Annot) (indent : String), anns ≠ [] →
      ∃ ls, group_and_dump cfg keys anns indent = Except.ok ls := by
  intro keys
  induction keys with
  | nil =>
    intro anns indent _
    exact ⟨_, group_and_dump.eq_1 cfg anns indent⟩
  | cons k rest ih =>
    intro anns indent ha
    obtain ⟨a, as, rfl⟩ := List.exists_cons_of_ne_nil ha
    by_cases hk : k ∈ annotFields
    · rw [group_and_dump_grouping cfg k rest a as indent hk]
      rw [dumpGroups_flatMap]
      · exact ⟨_, rfl⟩
      · intro e he
        obtain ⟨v, hv, rfl⟩ := List.mem_map.mp he
        exact ih _ _ (filter_key_ne_nil _ ((mem_sortedVals _ _ v).mp hv))
    · rw [group_and_dump.eq_3, if_neg hk]
      exact ⟨_, rfl⟩

theorem countHeads_eq (recFn : List Annot → Nat) (kf : Annot → String) (anns : List Annot) :
    ∀ vals : List String,
      countHeads recFn kf anns vals
        = (vals.map (fun v => 1 + recFn (anns.filter (fun x => kf x == v)))).sum := by
  intro vals
  induction vals with
  | nil => rfl
  | cons v vs ih =>
    rw [countHeads, ih, List.map_cons, List.sum_cons]

theorem sum_map_add_nat {α : Type} (l : List α) (f g : α → Nat) :
    (l.map (fun x => f x + g x)).sum = (l.map f).sum + (l.map g).sum := by
  induction l with
  | nil => rfl
  | cons x xs ih =>
    simp only [List.map_cons, List.sum_cons, ih]
    omega

theorem length_filter_split (kf : Annot → String) (v : String) (L : List Annot) :
    (L.filter (fun x => kf x == v)).length
      + (L.filter (fun x => !(kf x == v))).length = L.length := by
  induction L with
  | nil => rfl
  | cons x xs ihL =>
    by_cases hx : (kf x == v) = true
    · have h1 : (x :: xs).filter (fun y => kf y == v) = x :: xs.filter (fun y => kf y == v) := by
        rw [List.filter_cons, if_pos hx]
      have h2 : (x :: xs).filter (fun y => !(kf y == v)) = xs.filter (fun y => !(kf y == v)) := by
        rw [List.filter_cons, if_neg (by simp [hx])]
      rw [h1, h2]
      simp only [List.length_cons]
      omega
    · have hx' : (kf x == v) = false := by simpa using hx
      have h1 : (x :: xs).filter (fun y => kf y == v) = xs.filter (fun y => kf y == v) := by
        rw [List.filter_cons, if_neg (by simp [hx'])]
      have h2 : (x :: xs).filter (fun y => !(kf y == v))
          = x :: xs.filter (fun y => !(kf y == v)) := by
        rw [List.filter_cons, if_pos (by simp [hx'])]
      rw [h1, h2]
      simp only [List.length_cons]
      omega

/-- The groups at the distinct key values partition the list: their sizes
add up to the length of the list. -/
theorem sum_filter_key_length (kf : Annot → String) :
    ∀ (vals : List String) (l : List Annot), vals.Nodup →
      (∀ x ∈ l, kf x ∈ vals) →
      (vals.map (fun v => (l.filter (fun x => kf x == v)).length)).sum = l.length := by
  intro vals
  induction vals with
  | nil =>
    intro l _ hcov
    have hnil : l = [] := by
      cases l with
      | nil => rfl
      | cons x xs => exact absurd (hcov x (by simp)) (by simp)
    simp [hnil]
  | cons v vs ih =>
    intro l hnd hcov
    rw [List.map_cons, List.sum_cons]
    have hvs : v ∉ vs := (List.nodup_cons.mp hnd).1
    have hmap : vs.map (fun w => (l.filter (fun x => kf x == w)).length)
        = vs.map (fun w =>
            ((l.filter (fun x => !(kf x == v))).filter (fun x => kf x == w)).length) := by
      apply List.map_congr_left
      intro w hw
      congr 1
      rw [List.filter_filter]
      apply List.filter_congr
      intro x _
      by_cases hxw : kf x = w
      · have hwv : ¬ w = v := fun e => hvs (e ▸ hw)
        simp [hxw, hwv]
      · simp [hxw]
    have hcov2 : ∀ x ∈ l.filter (fun x => !(kf x == v)), kf x ∈ vs := by
      intro x hx
      have hxl := List.mem_filter.mp hx
      have hne : (kf x == v) = false := by simpa using hxl.2
      rcases List.mem_cons.mp (hcov x hxl.1) with e | e
      · rw [e] at hne
        simp at hne
      · exact e
    rw [hmap, ih (l.filter (fun x => !(kf x == v))) (List.nodup_cons.mp hnd).2 hcov2]
    have := length_filter_split kf v l
    omega

/-- With a non-empty list, group_and_dump succeeds and produces one line
element per record plus one heading line per distinct group value at each
level actually applied. -/
theorem group_and_dump_length (cfg : Config) :
    ∀ (keys : List String) (anns : List Annot) (indent : String), anns ≠ [] →
      ∃ ls, group_and_dump cfg keys anns indent = Except.ok ls
        ∧ ls.length = anns.length + numHeadings keys anns := by
  intro keys
  induction keys with
  | nil =>
    intro anns indent _
    refine ⟨_, group_and_dump.eq_1 cfg anns indent, ?_⟩
    simp [numHeadings]
  | cons k rest ih =>
    intro anns indent ha
    obtain ⟨a, as, rfl⟩ := List.exists_cons_of_ne_nil ha
    by_cases hk : k ∈ annotFields
    · have hokg : ∀ e ∈ (sortedVals (fun x => getField x k) (a :: as)).map
          (fun v => (v, (a :: as).filter (fun x => getField x k == v))),
          ∃ ls, group_and_dump cfg rest e.2 (indent ++ "    ") = Except.ok ls := by
        intro e he
        obtain ⟨v, hv, rfl⟩ := List.mem_map.mp he
        obtain ⟨ls, h1, -⟩ := ih _ (indent ++ "    ")
          (filter_key_ne_nil _ ((mem_sortedVals _ _ v).mp hv))
        exact ⟨ls, h1⟩
      rw [group_and_dump_grouping cfg k rest a as indent hk, dumpGroups_flatMap _ _ _ hokg]
      refine ⟨_, rfl, ?_⟩
      rw [List.flatMap_map, List.length_flatMap]
      have hterm : ∀ v ∈ sortedVals (fun x => getField x k) (a :: as),
          (List.length ∘ fun v => headingLine indent v
              :: okLines (group_and_dump cfg rest
                ((a :: as).filter (fun x => getField x k == v)) (indent ++ "    "))) v
            = (fun v => (1 + numHeadings rest ((a :: as).filter (fun x => getField x k == v)))
                + ((a :: as).filter (fun x => getField x k == v)).length) v := by
        intro v hv
        obtain ⟨ls, h1, h2⟩ := ih _ (indent ++ "    ")
          (filter_key_ne_nil _ ((mem_sortedVals _ _ v).mp hv))
        simp only [Function.comp, List.length_cons, h1, okLines]
        omega
      rw [List.map_congr_left hterm, sum_map_add_nat,
        sum_filter_key_length _ _ _ (sorted_lt_nodup (sortedVals_sorted _ _))
          (fun x hx => (mem_sortedVals _ _ _).mpr (List.mem_map.mpr ⟨x, hx, rfl⟩)),
        numHeadings.eq_3, if_pos hk,
        countHeads_eq (fun g => numHeadings rest g) (fun x => getField x k) (a :: as)]
      omega
    · rw [group_and_dump.eq_3, if_neg hk]
      refine ⟨_, rfl, ?_⟩
      rw [numHeadings.eq_3, if_neg hk]
      simp

/-- Claim C2 (counterexample): with the non-empty group-key list of the
default configuration and an empty annotation list, the renderer does not
return an empty list of lines: evaluating the field test indexes the first
element of the empty list and raises IndexError. -/
theorem c2_counterexample :
    group_and_dump ({} : Config) ["date"] [] ""
        = Except.error "IndexError: list index out of range"
      ∧ group_and_dump ({} : Config) ["date"] [] "" ≠ Except.ok [] := by
  constructor
  · rw [group_and_dump.eq_2]
  · rw [group_and_dump.eq_2]
    intro h
    exact Except.noConfusion h

/-- Claim C2 (amended): with an empty annotation list the renderer returns
normally with an empty list of lines only when the group-key list is also
empty; with a non-empty group-key list, the hasattr test evaluates
annotations[0] on the empty list and raises IndexError, for every indent
and configuration. -/
theorem c2_empty_records (cfg : Config) (keys : List String) (indent : String) :
    group_and_dump cfg keys [] indent
      = if keys.isEmpty then Except.ok []
        else Except.error "IndexError: list index out of range" := by
  cases keys with
  | nil =>
    rw [group_and_dump.eq_1]
    rfl
  | cons k rest =>
    rw [group_and_dump.eq_2]
    rfl

/-- Claim C3: for a non-empty list and any grouping-key ordering the
renderer succeeds, and the total line count - each produced element being
one line except the blocks of records with a non-empty note, which span
two - equals the sum of the per-record formatted line counts (1 for an
empty note, 2 otherwise) plus exactly one heading line per distinct group
value at each grouping level actually applied. -/
theorem c3_total_line_count (cfg : Config) (keys : List String) (anns : List Annot)
    (indent : String) (ha : anns ≠ []) :
    ∃ lines, group_and_dump cfg keys anns indent = Except.ok lines
      ∧ lines.length + (anns.filter (fun a => a.note ≠ "")).length
          = (anns.map (fun a => if a.note = "" then 1 else 2)).sum
            + numHeadings keys anns := by
  obtain ⟨ls, h1, h2⟩ := group_and_dump_length cfg keys anns indent ha
  refine ⟨ls, h1, ?_⟩
  have hsum : ∀ l : List Annot, (l.map (fun a => if a.note = "" then 1 else 2)).sum
      = l.length + (l.filter (fun a => a.note ≠ "")).length := by
    intro l
    induction l with
    | nil => rfl
    | cons x xs ih =>
      by_cases hx : x.note = ""
      · simp only [List.map_cons, List.sum_cons, if_pos hx, List.filter_cons,
          List.length_cons, ih]
        simp [hx]
        omega
      · simp only [List.map_cons, List.sum_cons, if_neg hx, List.filter_cons,
          List.length_cons, ih]
        simp [hx]
        omega
  rw [hsum]
  omega

/-- Claim C3 (witness): the statement at a one-record list with the
default grouping key. -/
theorem c3_witness :
    ∃ lines, group_and_dump ({} : Config) ["all"] [⟨"d", "c", "y", "T", ""⟩] ""
        = Except.ok lines
      ∧ lines.length
          + (([⟨"d", "c", "y", "T", ""⟩] : List Annot).filter (fun a => a.note ≠ "")).length
          = (([⟨"d", "c", "y", "T", ""⟩] : List Annot).map
              (fun a => if a.note = "" then 1 else 2)).sum
            + numHeadings ["all"] [⟨"d", "c", "y", "T", ""⟩] :=
  c3_total_line_count ({} : Config) ["all"] [⟨"d", "c", "y", "T", ""⟩] ""
    (List.cons_ne_nil _ _)

/-- Claim C4: when grouping applies (valid field key, non-empty list), the
distinct values of the key are strictly ascending and cover exactly the
key values occurring in the list, and the renderer emits, for each value
in that order, the heading line (the indent, a dash, one hash mark per
indent level plus one, a space, the value) immediately followed by the
recursive rendering of that value's group - the original-order filter of
the list at that value - with the remaining keys and the indent extended
by four spaces. -/
theorem c4_grouping (cfg : Config) (k : String) (rest : List String)
    (anns : List Annot) (indent : String) (hk : k ∈ annotFields) (ha : anns ≠ []) :
    List.Sorted (· < ·) (sortedVals (fun x => getField x k) anns)
    ∧ (∀ v, v ∈ sortedVals (fun x => getField x k) anns
          ↔ v ∈ anns.map (fun x => getField x k))
    ∧ group_and_dump cfg (k :: rest) anns indent
        = Except.ok ((sortedVals (fun x => getField x k) anns).flatMap
            (fun v => headingLine indent v
              :: okLines (group_and_dump cfg rest
                   (anns.filter (fun x => getField x k == v)) (indent ++ "    ")))) := by
  obtain ⟨a, as, rfl⟩ := List.exists_cons_of_ne_nil ha
  refine ⟨sortedVals_sorted _ _, fun v => mem_sortedVals _ _ v, ?_⟩
  rw [group_and_dump_grouping cfg k rest a as indent hk]
  rw [dumpGroups_flatMap]
  · rw [List.flatMap_map]
  · intro e he
    obtain ⟨v, hv, rfl⟩ := List.mem_map.mp he
    exact group_and_dump_ok cfg rest _ _ (filter_key_ne_nil _ ((mem_sortedVals _ _ v).mp hv))

/-- Claim C4 (witness): the rendering equation at a concrete two-record
list grouped by chapter, with the two chapters out of order. -/
theorem c4_witness :
    group_and_dump ({} : Config) ["chapter"] [⟨"d1", "z", "y", "T1", ""⟩, ⟨"d2", "a", "y", "T2", ""⟩] ""
      = Except.ok ((sortedVals (fun x => getField x "chapter")
            [⟨"d1", "z", "y", "T1", ""⟩, ⟨"d2", "a", "y", "T2", ""⟩]).flatMap
          (fun v => headingLine "" v
            :: okLines (group_and_dump ({} : Config) []
                 (([⟨"d1", "z", "y", "T1", ""⟩, ⟨"d2", "a", "y", "T2", ""⟩] : List Annot).filter
                   (fun x => getField x "chapter" == v)) ("" ++ "    ")))) :=
  (c4_grouping ({} : Config) "chapter" []
    [⟨"d1", "z", "y", "T1", ""⟩, ⟨"d2", "a", "y", "T2", ""⟩] ""
    (by decide) (List.cons_ne_nil _ _)).2.2

/-- Claim C5: a first key that is not a field of the record type renders
exactly as the empty key list does: one flat formatted block per record at
the current indent and no heading lines. -/
theorem c5_invalid_key (cfg : Config) (k : String) (rest : List String)
    (anns : List Annot) (indent : String) (hk : k ∉ annotFields) (ha : anns ≠ []) :
    group_and_dump cfg (k :: rest) anns indent
      = group_and_dump cfg [] anns indent := by
  obtain ⟨a, as, rfl⟩ := List.exists_cons_of_ne_nil ha
  rw [group_and_dump.eq_3, if_neg hk, group_and_dump.eq_1]

/-- Claim C5 (witness): the equation at a concrete one-record list with an
unknown key name. -/
theorem c5_witness :
    group_and_dump ({} : Config) ["bogus"] [⟨"d", "c", "y", "T", ""⟩] ""
      = group_and_dump ({} : Config) [] [⟨"d", "c", "y", "T", ""⟩] "" :=
  c5_invalid_key ({} : Config) "bogus" [] [⟨"d", "c", "y", "T", ""⟩] ""
    (by decide) (List.cons_ne_nil _ _)

/-! ### The per-message pipeline -/

/-- Claim C1 (code bug): with zero extracted records the assembler indeed
returns no document, but the per-message loop does not skip the dump: it
passes None straight to dump_markdown, which in the default file mode
opens the output file and then raises TypeError on f.write(None), instead
of writing nothing and continuing without error. -/
theorem c1_empty_message_bug :
    generate_markdown ({} : Config) ({} : MetaData) [] = Except.ok none
    ∧ process_message ({} : Config) ⟨[], none, none, none⟩ "ts"
        = Except.error "TypeError: write() argument must be str, not NoneType" := by
  constructor
  · rfl
  · rfl

/-- Claim C6 (counterexample): parsing a document whose title, author and
citation nodes are all absent yields the placeholder "Not specified" for
all three fields, not the defaults named by the claim; the dataclass
defaults (which spell the author default "Unkown") are never used by the
parser, because it always supplies all three fields. -/
theorem c6_counterexample :
    extract_from_html ⟨[], none, none, none⟩ "ts"
        = Except.ok ((⟨"Not specified", "Not specified", "Not specified", "ts"⟩ : MetaData), [])
      ∧ ("Not specified" : String) ≠ "Untitled"
      ∧ ("Not specified" : String) ≠ "Unknown"
      ∧ ("Not specified" : String) ≠ "Unspecified" :=
  ⟨rfl, by decide, by decide, by decide⟩

/-- Claim C6 (amended): when the title, author, or citation markup element
is absent from the parsed document, the metadata returned by the parser
holds the placeholder "Not specified" in the corresponding field; the
dataclass defaults "Untitled", "Unkown" and "Unspecified" apply only when
a field is not supplied at construction, which the parser never does. -/
theorem c6_missing_nodes (doc : HtmlDoc) (now : String) (md : MetaData)
    (anns : List Annot) (hres : extract_from_html doc now = Except.ok (md, anns)) :
    (doc.h1 = none → md.title = "Not specified")
    ∧ (doc.h2 = none → md.author = "Not specified")
    ∧ (doc.citation = none → md.source = "Not specified") := by
  unfold extract_from_html at hres
  cases hmapM : doc.annotElems.mapM extract_annot_elem with
  | error e =>
    rw [hmapM] at hres
    exact absurd hres (by simp [Bind.bind, Except.bind])
  | ok r =>
    rw [hmapM] at hres
    have hmd : md = (⟨extract_if_not_none doc.h1, extract_if_not_none doc.h2,
        (if extract_if_not_none doc.citation ≠ "Not specified" then
          pyStrip ((((extract_if_not_none doc.citation).splitOn "\n").headD ""))
         else extract_if_not_none doc.citation), now⟩ : MetaData) := by
      have := hres.symm
      simp only [Bind.bind, Except.bind, Except.ok.injEq, Prod.mk.injEq] at this
      exact this.1
    refine ⟨?_, ?_, ?_⟩
    · intro h
      rw [hmd, h]
      rfl
    · intro h
      rw [hmd, h]
      rfl
    · intro h
      rw [hmd, h]
      rfl

/-- Claim C6 (witness): the amended statement at a concrete document with
all three elements absent. -/
theorem c6_witness :
    ((⟨"Not specified", "Not specified", "Not specified", "t"⟩ : MetaData).title
        = "Not specified")
    ∧ ((⟨"Not specified", "Not specified", "Not specified", "t"⟩ : MetaData).author
        = "Not specified")
    ∧ ((⟨"Not specified", "Not specified", "Not specified", "t"⟩ : MetaData).source
        = "Not specified") :=
  have h := c6_missing_nodes ⟨[], none, none, none⟩ "t"
    (⟨"Not specified", "Not specified", "Not specified", "t"⟩ : MetaData) [] rfl
  ⟨h.1 rfl, h.2.1 rfl, h.2.2 rfl⟩

end Gabhil
